import Mathlib

/-!
Shallow embedding of the keepassxc CLI fdosecrets interaction layer:

* `src/cli/LineReader.h` — the suspend/resume capable line readers
  (`SimpleLineReader`), modelled as an explicit state machine driven by
  socket-notifier activations and pause/restore calls;
* `src/fdosecrets/FdoSecretsPluginCLI.cpp` — `userAction` (the interactive
  multiple-choice prompt over the standard input token stream),
  `confirmDeleteEntries`, `requestEntriesUnlock` and `requestEntriesRemove`.

The standard input is modelled as a list of characters.  `QTextStream`'s
`>>` operator on a `QString` skips leading whitespace and then reads a
maximal run of non-whitespace characters; `atEnd()` is true exactly when no
character is left in the stream.  Entries are identified by natural numbers;
the store operations performed by `requestEntriesRemove` (reference
rewriting, hard deletion, recycling) are recorded in an explicit event log.
-/

namespace KPXC

/-- Whitespace as `QChar::isSpace` sees the ASCII range (space, tab,
newline, vertical tab, form feed, carriage return). -/
def isWs (c : Char) : Bool :=
  c = ' ' || c = '\t' || c = '\n' || c = '\x0b' || c = '\x0c' || c = '\r'

/-- `QTextStream >> QString`: skip leading whitespace, then read a maximal
run of non-whitespace characters.  Returns the token and the remaining
stream (which starts right after the token). -/
def readToken (s : List Char) : List Char × List Char :=
  let t := s.dropWhile isWs
  (t.takeWhile (fun c => !isWs c), t.dropWhile (fun c => !isWs c))

/-- `QString::trimmed`: remove leading and trailing whitespace. -/
def trimStr (s : List Char) : List Char :=
  ((s.dropWhile isWs).reverse.dropWhile isWs).reverse

/-- `input.trimmed().toLower()` — the normalisation `userAction` applies to
the operator's token and to every alias before comparing them. -/
def cleanStr (s : List Char) : List Char :=
  (trimStr s).map Char.toLower

/-- `QString::split("|")`: the pieces of an alias group, separators
removed, empty pieces kept. -/
def splitBar : List Char → List (List Char)
  | [] => [[]]
  | c :: cs =>
    let r := splitBar cs
    if c = '|' then [] :: r
    else (c :: r.headI) :: r.tail

/-- One alias group accepts the (already normalised) token `cl` when some
piece of the group, trimmed and lower-cased, equals it. -/
def groupHas (g : List Char) (cl : List Char) : Bool :=
  (splitBar g).any (fun m => cleanStr m = cl)

/-- The inner double loop of `userAction`: the first index `i` whose alias
group accepts the normalised token. -/
def findMatch (groups : List (List Char)) (cl : List Char) : Option Nat :=
  match groups with
  | [] => none
  | g :: gs => if groupHas g cl then some 0 else (findMatch gs cl).map (· + 1)

/-- The loop body of `FdoSecretsPluginCLI::userAction`, with explicit fuel
(the loop consumes at least one character of the stream per iteration, so
`s.length + 1` units of fuel always suffice; see `uaGo_fuel_irrel`).
Faithful to the source: the token is read first, then `atEnd()` is checked
— so a token sitting at the very end of the stream is discarded and the
prompt reports cancellation (`-1`). -/
def uaGo (groups : List (List Char)) : Nat → List Char → Int × List Char
  | 0, _ => (-1, [])
  | fuel + 1, s =>
    let (tok, rest) := readToken s
    if rest = [] then (-1, [])
    else
      match findMatch groups (cleanStr tok) with
      | some i => (Int.ofNat i, rest)
      | none => uaGo groups fuel rest

/-- `FdoSecretsPluginCLI::userAction(message, actions, groups)` as a
function of the alias groups and the input stream: the chosen index (or
`-1` for cancellation) and the stream left for the next prompt.  The
`message`/`actions` arguments only affect terminal output and are dropped. -/
def userActionS (groups : List (List Char)) (s : List Char) : Int × List Char :=
  uaGo groups (s.length + 1) s

/-! ### Alias groups used by `FdoSecretsPluginCLI` -/

/-- Alias groups of the batch choice of `requestEntriesUnlock`:
`{"a|allow|allow all", "d|deny|deny all", "s|selected|allow selected"}`. -/
def unlockGroups : List (List Char) :=
  ["a|allow|allow all".toList, "d|deny|deny all".toList, "s|selected|allow selected".toList]

/-- Alias groups of the yes/no questions: `{"y|yes", "n|no"}`. -/
def ynGroups : List (List Char) := ["y|yes".toList, "n|no".toList]

/-- Alias groups of `confirmDeleteEntries`: `{"a|allow", "d|deny"}`. -/
def confirmGroups : List (List Char) := ["a|allow".toList, "d|deny".toList]

/-- Alias groups of the reference-resolution choice of `requestEntriesRemove`:
`{"o|overwrite", "s|skip", "d|delete"}`. -/
def refGroups : List (List Char) := ["o|overwrite".toList, "s|skip".toList, "d|delete".toList]

/-! ### The unlock workflow (`FdoSecretsPluginCLI::requestEntriesUnlock`) -/

/-- `AuthDecision` of `fdosecrets`: `Allowed`/`Denied` are the durable
values, the `*Once` values apply to the current request only. -/
inductive AuthDecision
  | Undecided
  | Allowed
  | Denied
  | AllowedOnce
  | DeniedOnce
  deriving DecidableEq, Repr

/-- The local `Action` enum of `FdoSecretsPluginCLI.cpp`. -/
inductive Action
  | Rejected
  | AllowSelected
  | AllowAll
  | DenyAll
  deriving DecidableEq, Repr

/-- The observable outcome of `requestEntriesUnlock`: the returned boolean
(`false` = cancelled), the `decisions` out-parameter (`QHash` modelled as a
total map over entry ids) and the `forFutureEntries` out-parameter. -/
structure UnlockResult where
  ok : Bool
  decisions : Nat → AuthDecision
  future : AuthDecision

/-- `decisions[entry] = v` on the hash modelled as a map. -/
def updMap (d : Nat → AuthDecision) (e : Nat) (v : AuthDecision) : Nat → AuthDecision :=
  fun x => if x = e then v else d x

/-- The per-entry loop of `requestEntriesUnlock`: for `AllowSelected` each
entry gets its own yes/no prompt (`-1` aborts the whole request, returning
the decisions written so far — the hash is an out-parameter); otherwise
every entry is written with the batch decision and no prompt is shown. -/
def unlockSelLoop (action : Action) (decision : AuthDecision) :
    List Nat → (Nat → AuthDecision) → List Char →
    Except (Nat → AuthDecision) ((Nat → AuthDecision) × List Char)
  | [], d, s => .ok (d, s)
  | e :: es, d, s =>
    if action = .AllowSelected then
      let (c, s') := userActionS ynGroups s
      if c = -1 then .error d
      else
        let undecided : Bool := c ≠ 0
        unlockSelLoop action decision es
          (updMap d e (if undecided then .Undecided else decision)) s'
    else
      unlockSelLoop action decision es (updMap d e decision) s

/-- The loop of the "remember" branch: every entry whose current decision
is not `Undecided` is overwritten with the durable decision. -/
def unlockRememberLoop (decision : AuthDecision) :
    List Nat → (Nat → AuthDecision) → (Nat → AuthDecision)
  | [], d => d
  | e :: es, d =>
    unlockRememberLoop decision es (if d e ≠ .Undecided then updMap d e decision else d)

/-- `requestEntriesUnlock` after the batch choice has selected `action`
(with its once-decision `decision0`): the per-entry loop, then the
"remember this action" prompt and its switch. -/
def unlockAfterChoice (entries : List Nat) (action : Action) (decision0 : AuthDecision)
    (d0 : Nat → AuthDecision) (s1 : List Char) : UnlockResult :=
  match unlockSelLoop action decision0 entries d0 s1 with
  | .error d => { ok := false, decisions := d, future := .Undecided }
  | .ok (d, s2) =>
    let (c, _s3) := userActionS ynGroups s2
    if c = 0 then
      let p : AuthDecision × AuthDecision :=
        if action = .AllowSelected then (.Allowed, .Undecided)
        else if action = .AllowAll then (.Allowed, .Allowed)
        else if action = .DenyAll then (.Denied, .Denied)
        else (decision0, .Undecided)
      { ok := true, decisions := unlockRememberLoop p.1 entries d, future := p.2 }
    else if c = 1 then { ok := true, decisions := d, future := .Undecided }
    else { ok := false, decisions := d, future := .Undecided }

/-- `FdoSecretsPluginCLI::requestEntriesUnlock` over the input stream.
`d0` is the caller-supplied `decisions` hash (written through on early
returns, since it is an out-parameter); `forFutureEntries` is assigned
`Undecided` at the start of the function. -/
def requestEntriesUnlock (entries : List Nat) (d0 : Nat → AuthDecision)
    (stream : List Char) : UnlockResult :=
  let (c, s1) := userActionS unlockGroups stream
  if c = 0 then unlockAfterChoice entries .AllowAll .AllowedOnce d0 s1
  else if c = 1 then unlockAfterChoice entries .DenyAll .DeniedOnce d0 s1
  else if c = 2 then unlockAfterChoice entries .AllowSelected .AllowedOnce d0 s1
  else { ok := false, decisions := d0, future := .Undecided }

/-! ### The delete workflow (`FdoSecretsPluginCLI::requestEntriesRemove`) -/

/-- The operator-visible interactions and store side effects of
`requestEntriesRemove`, in the order they happen. -/
inductive REvent
  | confirmPrompt
  | refPrompt (entry : Nat)
  | overwrite (ref entry : Nat)
  | hardDelete (entry : Nat)
  | recycle (entry : Nat)
  deriving DecidableEq, Repr

/-- Outcome of the selection loop: `aborted` is the `return 0` taken on a
cancelled reference prompt (events so far, nothing deleted), `done` carries
the events, the entries marked for deletion and the remaining stream. -/
inductive SelOutcome
  | aborted (events : List REvent)
  | done (events : List REvent) (selected : List Nat) (rest : List Char)
  deriving DecidableEq, Repr

/-- Prepend this iteration's events to an outcome. -/
def SelOutcome.addEvents (evs : List REvent) : SelOutcome → SelOutcome
  | .aborted e2 => .aborted (evs ++ e2)
  | .done e2 sel s => .done (evs ++ e2) sel s

/-- Mark `e` for deletion (prepend it to the selected entries). -/
def SelOutcome.selectEntry (e : Nat) : SelOutcome → SelOutcome
  | .aborted e2 => .aborted e2
  | .done e2 sel s => .done e2 (e :: sel) s

/-- The selection loop of `requestEntriesRemove`.  For a permanent removal,
an entry whose `referencesRecursive` list is non-empty gets the 3-way
Overwrite/Skip/Delete prompt — the in-batch filtering
(`references.removeAll(e)` for every `e` of the batch) happens only
afterwards, inside the branch, and only affects which references are
rewritten by Overwrite.  Cancellation (`-1`) is the source's `return 0`. -/
def removeSelLoop (refsOf : Nat → List Nat) (batch : List Nat) (permanent : Bool) :
    List Nat → List Char → SelOutcome
  | [], s => .done [] [] s
  | e :: es, s =>
    if permanent ∧ refsOf e ≠ [] then
      let refs := (refsOf e).filter (fun r => !batch.contains r)
      let (c, s') := userActionS refGroups s
      if c = 0 then
        ((removeSelLoop refsOf batch permanent es s').selectEntry e).addEvents
          (.refPrompt e :: refs.map (fun r => .overwrite r e))
      else if c = 1 then
        (removeSelLoop refsOf batch permanent es s').addEvents [.refPrompt e]
      else if c = 2 then
        ((removeSelLoop refsOf batch permanent es s').selectEntry e).addEvents [.refPrompt e]
      else .aborted [.refPrompt e]
    else
      (removeSelLoop refsOf batch permanent es s).selectEntry e

/-- `FdoSecretsPluginCLI::confirmDeleteEntries`: lists the entries, asks
the batch `{"a|allow", "d|deny"}` question, and returns `choice == 0`. -/
def confirmDeleteEntries (s : List Char) : Bool × List Char :=
  let (c, s') := userActionS confirmGroups s
  (c = 0, s')

/-- What a run of `requestEntriesRemove` returns and does: the returned
count and the event log. -/
structure RemoveResult where
  count : Nat
  events : List REvent
  deriving DecidableEq, Repr

/-- `FdoSecretsPluginCLI::requestEntriesRemove` over the input stream.
`confirmDeleteItem` is the `FdoSecrets::settings()->confirmDeleteItem()`
flag; `refsOf e` the `referencesRecursive` result for entry `e`.  Faithful
to the source: the function returns 0 when the confirmation prompt answers
Allow (`confirmDeleteEntries` returns `choice == 0`), and proceeds with the
removal on Deny or cancellation. -/
def requestEntriesRemove (confirmDeleteItem : Bool) (refsOf : Nat → List Nat)
    (entries : List Nat) (permanent : Bool) (stream : List Char) : RemoveResult :=
  if entries = [] then { count := 0, events := [] }
  else
    let (stop, s1, evs0) :=
      if confirmDeleteItem then
        let (confirmed, s') := confirmDeleteEntries stream
        (confirmed, s', [REvent.confirmPrompt])
      else (false, stream, ([] : List REvent))
    if stop then { count := 0, events := evs0 }
    else
      match removeSelLoop refsOf entries permanent entries s1 with
      | .aborted evs => { count := 0, events := evs0 ++ evs }
      | .done evs sel _ =>
        { count := sel.length,
          events := evs0 ++ evs ++
            sel.map (fun e => if permanent then REvent.hardDelete e else REvent.recycle e) }

/-! ### The buffered line reader (`SimpleLineReader` of `src/cli/LineReader.h`) -/

/-- State of a `SimpleLineReader`: whether the socket notifier is connected
to the read lambda, and the lines the input stream still holds (empty =
`m_input.atEnd()`). -/
structure LRState where
  connected : Bool
  remaining : List (List Char)
  deriving DecidableEq, Repr

/-- Signals a `SimpleLineReader` emits. -/
inductive LREvent
  | readLine (line : List Char)
  | finished
  deriving DecidableEq, Repr

/-- External stimuli: a socket-notifier activation, `pause()`, `restore()`. -/
inductive LROp
  | activate
  | pause
  | restore
  deriving DecidableEq, Repr

/-- One step of `SimpleLineReader`: `pause` disconnects the notifier,
`restore` reprints the prompt and reconnects it, and an activation (while
connected) either delivers the next line or — at end of input — disconnects
and emits `finished`. -/
def lrStep (st : LRState) : LROp → LRState × List LREvent
  | .pause => ({ st with connected := false }, [])
  | .restore => ({ st with connected := true }, [])
  | .activate =>
    if st.connected then
      match st.remaining with
      | [] => ({ st with connected := false }, [.finished])
      | l :: ls => ({ st with remaining := ls }, [.readLine l])
    else (st, [])

/-- The signals a `SimpleLineReader` emits over a sequence of stimuli. -/
def lrRun (st : LRState) : List LROp → List LREvent
  | [] => []
  | op :: ops =>
    let (st', evs) := lrStep st op
    evs ++ lrRun st' ops

/-! ### Basic facts about the token reader -/

theorem length_dropWhile_le (p : Char → Bool) (l : List Char) :
    (l.dropWhile p).length ≤ l.length := by
  induction l with
  | nil => simp
  | cons a t ih =>
    by_cases h : p a
    · simp only [List.dropWhile, h]
      simp only [List.length_cons]
      omega
    · simp [List.dropWhile, h]

theorem readToken_rest_lt (s : List Char) (h : (readToken s).2 ≠ []) :
    (readToken s).2.length < s.length := by
  unfold readToken at *
  simp only at h ⊢
  rcases hd : s.dropWhile isWs with _ | ⟨c, t⟩
  · simp [hd] at h
  · have hc : isWs c = false := by
      have := List.head_dropWhile_not isWs s (by simp [hd])
      simpa [hd] using this
    have h1 : (c :: t).dropWhile (fun c => !isWs c) = t.dropWhile (fun c => !isWs c) := by
      simp [List.dropWhile, hc]
    have h2 : (t.dropWhile (fun c => !isWs c)).length ≤ t.length :=
      length_dropWhile_le _ t
    have h3 : (s.dropWhile isWs).length ≤ s.length := length_dropWhile_le _ s
    rw [hd] at h3
    simp only [hd, h1]
    simp only [List.length_cons] at h3
    omega

theorem readToken_tok_nil (s : List Char) (h : (readToken s).1 = []) :
    (readToken s).2 = [] := by
  unfold readToken at *
  simp only at h ⊢
  rcases hd : s.dropWhile isWs with _ | ⟨c, t⟩
  · simp
  · have hc : isWs c = false := by
      have := List.head_dropWhile_not isWs s (by simp [hd])
      simpa [hd] using this
    rw [hd] at h
    simp [List.takeWhile, hc] at h

theorem readToken_tok_ne (s : List Char) (h : (readToken s).2 ≠ []) :
    (readToken s).1 ≠ [] :=
  fun htok => h (readToken_tok_nil s htok)

theorem readToken_rest_lt_tok (s : List Char) (h : (readToken s).1 ≠ []) :
    (readToken s).2.length < s.length := by
  unfold readToken at *
  simp only at h ⊢
  rcases hd : s.dropWhile isWs with _ | ⟨c, t⟩
  · rw [hd] at h; simp at h
  · have hc : isWs c = false := by
      have := List.head_dropWhile_not isWs s (by simp [hd])
      simpa [hd] using this
    have h1 : (c :: t).dropWhile (fun c => !isWs c) = t.dropWhile (fun c => !isWs c) := by
      simp [List.dropWhile, hc]
    have h2 : (t.dropWhile (fun c => !isWs c)).length ≤ t.length :=
      length_dropWhile_le _ t
    have h3 : (s.dropWhile isWs).length ≤ s.length := length_dropWhile_le _ s
    rw [hd] at h3
    simp only [hd, h1]
    simp only [List.length_cons] at h3
    omega

/-- The successive tokens `QTextStream >>` would extract from the stream,
with the same fuel discipline as `uaGo`. -/
def tokGo : Nat → List Char → List (List Char)
  | 0, _ => []
  | fuel + 1, s =>
    let (tok, rest) := readToken s
    if tok = [] then [] else tok :: tokGo fuel rest

/-- All tokens of the stream. -/
def tokensOf (s : List Char) : List (List Char) := tokGo (s.length + 1) s

theorem tokGo_fuel_irrel :
    ∀ f₁ f₂ s, s.length < f₁ → s.length < f₂ → tokGo f₁ s = tokGo f₂ s := by
  intro f₁
  induction f₁ with
  | zero => intro f₂ s h₁; omega
  | succ f ih =>
    intro f₂ s h₁ h₂
    cases f₂ with
    | zero => omega
    | succ f' =>
      rcases hr : readToken s with ⟨tok, rest⟩
      simp only [tokGo, hr]
      rcases htok : tok with _ | ⟨c, t⟩
      · simp
      · have hlt : rest.length < s.length := by
          have := readToken_rest_lt_tok s (by rw [hr]; simp [htok])
          rwa [hr] at this
        simp only [if_neg (List.cons_ne_nil c t)]
        rw [ih f' rest (by omega) (by omega)]

/-- Fuel irrelevance: any amount of fuel beyond the stream's length gives
the behaviour of `userActionS`. -/
theorem uaGo_fuel_irrel (groups : List (List Char)) :
    ∀ f₁ f₂ s, s.length < f₁ → s.length < f₂ →
      uaGo groups f₁ s = uaGo groups f₂ s := by
  intro f₁
  induction f₁ with
  | zero => intro f₂ s h₁; omega
  | succ f ih =>
    intro f₂ s h₁ h₂
    cases f₂ with
    | zero => omega
    | succ f' =>
      rcases hr : readToken s with ⟨tok, rest⟩
      simp only [uaGo, hr]
      rcases hrest : rest with _ | ⟨c, t⟩
      · simp
      · have hlt : rest.length < s.length := by
          have := readToken_rest_lt s (by rw [hr]; simp [hrest])
          rwa [hr] at this
        rw [hrest] at hlt
        simp only [if_neg (List.cons_ne_nil c t)]
        cases findMatch groups (cleanStr tok) with
        | some i => rfl
        | none =>
          exact ih f' (c :: t) (by simp at hlt ⊢; omega)
            (by simp at hlt ⊢; omega)

/-- The unfolding equation of `userActionS` with the fuel hidden. -/
theorem userActionS_eq (groups : List (List Char)) (s : List Char) :
    userActionS groups s =
      let (tok, rest) := readToken s
      if rest = [] then (-1, [])
      else
        match findMatch groups (cleanStr tok) with
        | some i => (Int.ofNat i, rest)
        | none => userActionS groups rest := by
  unfold userActionS
  rcases hr : readToken s with ⟨tok, rest⟩
  simp only [uaGo, hr]
  rcases hrest : rest with _ | ⟨c, t⟩
  · simp
  · have hlt : rest.length < s.length := by
      have := readToken_rest_lt s (by rw [hr]; simp [hrest])
      rwa [hr] at this
    rw [hrest] at hlt
    simp only [if_neg (List.cons_ne_nil c t)]
    cases findMatch groups (cleanStr tok) with
    | some i => rfl
    | none =>
      exact uaGo_fuel_irrel groups s.length ((c :: t).length + 1) (c :: t)
        (by simp at hlt ⊢; omega) (by omega)

theorem findMatch_sound (groups : List (List Char)) (cl : List Char) :
    ∀ i, findMatch groups cl = some i →
      ∃ g, groups[i]? = some g ∧ groupHas g cl = true := by
  induction groups with
  | nil => intro i h; simp [findMatch] at h
  | cons g gs ih =>
    intro i h
    simp only [findMatch] at h
    by_cases hg : groupHas g cl
    · rw [if_pos hg] at h
      obtain rfl : (0 : Nat) = i := Option.some.inj h
      exact ⟨g, by simp, hg⟩
    · rw [if_neg hg] at h
      cases hm : findMatch gs cl with
      | none => rw [hm] at h; simp at h
      | some j =>
        rw [hm] at h
        simp only [Option.map_some'] at h
        obtain rfl : j + 1 = i := Option.some.inj h
        obtain ⟨g', hg', hh'⟩ := ih j hm
        exact ⟨g', by simpa using hg', hh'⟩

theorem uaGo_sound (groups : List (List Char)) :
    ∀ fuel s i rest, uaGo groups fuel s = (Int.ofNat i, rest) →
      ∃ tok, tok ∈ tokGo fuel s ∧ findMatch groups (cleanStr tok) = some i := by
  intro fuel
  induction fuel with
  | zero =>
    intro s i rest h
    simp only [uaGo, Prod.mk.injEq] at h
    obtain ⟨h1, -⟩ := h
    rw [Int.ofNat_eq_natCast] at h1
    omega
  | succ f ih =>
    intro s i rest h
    rcases hr : readToken s with ⟨tok, rest0⟩
    simp only [uaGo, hr] at h
    rcases hrest : rest0 with _ | ⟨c, t⟩
    · rw [hrest] at h
      rw [if_pos rfl] at h
      have h1 : (-1 : Int) = Int.ofNat i := congrArg Prod.fst h
      rw [Int.ofNat_eq_natCast] at h1
      omega
    · rw [hrest] at h
      simp only [if_neg (List.cons_ne_nil c t)] at h
      have htokne : tok ≠ [] := by
        have := readToken_tok_ne s (by rw [hr]; simp [hrest])
        rwa [hr] at this
      have htg : tokGo (f + 1) s = tok :: tokGo f (c :: t) := by
        simp [tokGo, hr, htokne, hrest]
      cases hm : findMatch groups (cleanStr tok) with
      | some j =>
        rw [hm] at h
        simp only [Prod.mk.injEq] at h
        obtain ⟨h1, -⟩ := h
        obtain rfl : j = i := by
          rw [Int.ofNat_eq_natCast, Int.ofNat_eq_natCast] at h1
          omega
        exact ⟨tok, by rw [htg]; exact List.mem_cons_self _ _, hm⟩
      | none =>
        rw [hm] at h
        obtain ⟨tok', ht', hm'⟩ := ih (c :: t) i rest h
        exact ⟨tok', by rw [htg]; exact List.mem_cons_of_mem _ ht', hm'⟩

theorem uaGo_none (groups : List (List Char)) :
    ∀ fuel s, (∀ tok ∈ tokGo fuel s, findMatch groups (cleanStr tok) = none) →
      (uaGo groups fuel s).1 = -1 := by
  intro fuel
  induction fuel with
  | zero => intro s _; simp [uaGo]
  | succ f ih =>
    intro s h
    rcases hr : readToken s with ⟨tok, rest0⟩
    simp only [uaGo, hr]
    rcases hrest : rest0 with _ | ⟨c, t⟩
    · simp
    · simp only [if_neg (List.cons_ne_nil c t)]
      have htokne : tok ≠ [] := by
        have := readToken_tok_ne s (by rw [hr]; simp [hrest])
        rwa [hr] at this
      have htg : tokGo (f + 1) s = tok :: tokGo f (c :: t) := by
        simp [tokGo, hr, htokne, hrest]
      have hm : findMatch groups (cleanStr tok) = none := by
        apply h; rw [htg]; exact List.mem_cons_self _ _
      rw [hm]
      exact ih (c :: t) fun tok' ht' => h tok' (by rw [htg]; exact List.mem_cons_of_mem _ ht')

/-- **C7.** For every prompt and every input: (a) `userAction` never returns
an index `i` unless some token of the stream, trimmed and lower-cased, is
contained in alias group `i`; (b) matching is case- and
whitespace-insensitive — the normalisation of `" Y \n"` is that of `"y"`,
so both select the same choice in every alias-group list; (c) an input
stream none of whose tokens matches any alias group never produces a
silent default choice: the prompt keeps re-prompting until input is
exhausted and then reports cancellation (`-1`). -/
theorem userAction_matching_sound :
    (∀ (groups : List (List Char)) (s : List Char) (i : Nat) (rest : List Char),
        userActionS groups s = (Int.ofNat i, rest) →
        ∃ tok, tok ∈ tokensOf s ∧ findMatch groups (cleanStr tok) = some i ∧
          ∃ g, groups[i]? = some g ∧ groupHas g (cleanStr tok) = true) ∧
    (cleanStr " Y \n".toList = cleanStr "y".toList ∧
      ∀ groups : List (List Char),
        findMatch groups (cleanStr " Y \n".toList) = findMatch groups (cleanStr "y".toList)) ∧
    (∀ (groups : List (List Char)) (s : List Char),
        (∀ tok ∈ tokensOf s, findMatch groups (cleanStr tok) = none) →
        (userActionS groups s).1 = -1) := by
  refine ⟨?_, ⟨by decide, ?_⟩, ?_⟩
  · intro groups s i rest h
    obtain ⟨tok, htok, hm⟩ := uaGo_sound groups (s.length + 1) s i rest h
    obtain ⟨g, hg, hh⟩ := findMatch_sound groups (cleanStr tok) i hm
    exact ⟨tok, htok, hm, g, hg, hh⟩
  · intro groups
    have : cleanStr " Y \n".toList = cleanStr "y".toList := by decide
    rw [this]
  · intro groups s h
    exact uaGo_none groups (s.length + 1) s h

/-- **C8 counterexample.** The stream `"y"` (a matching token with nothing
after it, e.g. the operator typed `y` and closed the input without a final
newline): the token read is `y`, it matches alias group 0 of the yes/no
prompt, yet `userAction` returns `-1` (Cancelled) instead of index 0 —
the source checks `in.atEnd()` after reading the token and before
matching it. -/
theorem userAction_match_at_eof_cancelled :
    readToken ['y'] = (['y'], []) ∧
    findMatch ynGroups (cleanStr ['y']) = some 0 ∧
    userActionS ynGroups ['y'] = (-1, []) := by decide

/-- **C8 (amended).** `userAction` returns Cancelled (`-1`) immediately,
without further looping, whenever the stream is exhausted at a read —
including when the stream ends right after the token just read, in which
case even a matching token is discarded; and whenever a read token matches
an alias of choice `i` *and at least one character remains in the stream
after the token*, it returns index `i` immediately. -/
theorem userAction_eof_and_match :
    (∀ (groups : List (List Char)) (s : List Char),
        (readToken s).2 = [] → userActionS groups s = (-1, [])) ∧
    (∀ (groups : List (List Char)) (s tok rest : List Char) (i : Nat),
        readToken s = (tok, rest) → rest ≠ [] →
        findMatch groups (cleanStr tok) = some i →
        userActionS groups s = (Int.ofNat i, rest)) := by
  constructor
  · intro groups s h
    rw [userActionS_eq]
    rcases hr : readToken s with ⟨tok, rest⟩
    rw [hr] at h
    simp only at h
    subst h
    simp
  · intro groups s tok rest i hr hrest hm
    rw [userActionS_eq, hr]
    simp only [if_neg hrest, hm]

/-! ### Line-reader lemmas -/

theorem lrRun_exhausted_all_finished :
    ∀ (ops : List LROp) (st : LRState), st.remaining = [] →
      ∀ ev ∈ lrRun st ops, ev = LREvent.finished := by
  intro ops
  induction ops with
  | nil => intro st _ ev hev; simp [lrRun] at hev
  | cons op ops ih =>
    intro st h ev hev
    cases op with
    | pause =>
      simp only [lrRun, lrStep, List.nil_append] at hev
      exact ih _ (by simpa using h) ev hev
    | restore =>
      simp only [lrRun, lrStep, List.nil_append] at hev
      exact ih _ (by simpa using h) ev hev
    | activate =>
      by_cases hc : st.connected
      · simp only [lrRun, lrStep, hc, if_pos, h] at hev
        simp only [List.cons_append, List.nil_append, List.mem_cons] at hev
        rcases hev with rfl | hev
        · rfl
        · exact ih _ (by simp) ev hev
      · simp only [lrRun, lrStep, Bool.not_eq_true] at hc
        simp only [lrRun, lrStep, hc, Bool.false_eq_true, if_false, List.nil_append] at hev
        exact ih _ h ev hev

theorem lrRun_disconnected_no_restore :
    ∀ (ops : List LROp) (st : LRState), st.connected = false → LROp.restore ∉ ops →
      lrRun st ops = [] := by
  intro ops
  induction ops with
  | nil => intro st _ _; rfl
  | cons op ops ih =>
    intro st hc hmem
    cases op with
    | pause =>
      simp only [lrRun, lrStep, List.nil_append]
      exact ih _ rfl (fun hm => hmem (List.mem_cons_of_mem _ hm))
    | restore => exact absurd (List.mem_cons_self _ _) (fun hm => hmem hm)
    | activate =>
      simp only [lrRun, lrStep, hc, Bool.false_eq_true, if_false, List.nil_append]
      exact ih _ hc (fun hm => hmem (List.mem_cons_of_mem _ hm))

theorem lrRun_no_restore_finished_le_one :
    ∀ (ops : List LROp) (st : LRState), LROp.restore ∉ ops →
      (lrRun st ops).count LREvent.finished ≤ 1 := by
  intro ops
  induction ops with
  | nil => intro st _; simp [lrRun]
  | cons op ops ih =>
    intro st hmem
    have hops : LROp.restore ∉ ops := fun hm => hmem (List.mem_cons_of_mem _ hm)
    cases op with
    | pause =>
      simp only [lrRun, lrStep, List.nil_append]
      exact ih _ hops
    | restore => exact absurd (List.mem_cons_self _ _) (fun hm => hmem hm)
    | activate =>
      by_cases hc : st.connected
      · rcases hrem : st.remaining with _ | ⟨l, ls⟩
        · simp only [lrRun, lrStep, hc, if_pos, hrem]
          rw [lrRun_disconnected_no_restore ops _ rfl hops]
          simp
        · simp only [lrRun, lrStep, hc, if_pos, hrem, List.cons_append, List.nil_append,
            List.count_cons]
          have h2 : List.count LREvent.finished
              (lrRun { connected := st.connected, remaining := ls } ops) ≤ 1 :=
            ih { connected := st.connected, remaining := ls } hops
          rw [hc] at h2
          simpa using h2
      · simp only [Bool.not_eq_true] at hc
        simp only [lrRun, lrStep, hc, Bool.false_eq_true, if_false, List.nil_append]
        exact ih _ hops

theorem lrRun_complete_run :
    ∀ lines : List (List Char),
      lrRun { connected := true, remaining := lines }
          (List.replicate (lines.length + 1) LROp.activate)
        = lines.map LREvent.readLine ++ [LREvent.finished] := by
  intro lines
  induction lines with
  | nil => rfl
  | cons l ls ih =>
    simp only [List.length_cons, List.replicate, lrRun, lrStep, if_pos, List.map_cons,
      List.cons_append, List.nil_append]
    rw [List.cons.injEq]
    exact ⟨rfl, ih⟩

/-! ### Claim theorems: the line reader and the delete request edge cases -/

/-- **C9 counterexample.** A `SimpleLineReader` whose stream is exhausted:
one activation emits `finished` and disconnects, but a later `restore()`
(the `LineReaderGuard` destructor does exactly this after every nested
prompt) reconnects the notifier, and the next activation emits `finished`
a second time — the end-of-input signal is not emitted exactly once when
`restore` is called after exhaustion. -/
theorem lineReader_finished_twice :
    lrRun { connected := true, remaining := [] }
        [LROp.activate, LROp.restore, LROp.activate]
      = [LREvent.finished, LREvent.finished] := by decide

/-- **C9 (amended).** (a) Once the stream is exhausted, a `SimpleLineReader`
never delivers another `readLine`, whatever activations, pauses and
restores follow — every later signal is `finished`; (b) provided `restore`
is not called again, `finished` is emitted at most once; (c) a complete
run from a fresh reader delivers every line exactly once and then
`finished` exactly once, at the point the stream is exhausted. -/
theorem lineReader_finished_once :
    (∀ (ops : List LROp) (st : LRState), st.remaining = [] →
        ∀ ev ∈ lrRun st ops, ev = LREvent.finished) ∧
    (∀ (ops : List LROp) (st : LRState), LROp.restore ∉ ops →
        (lrRun st ops).count LREvent.finished ≤ 1) ∧
    (∀ lines : List (List Char),
        lrRun { connected := true, remaining := lines }
            (List.replicate (lines.length + 1) LROp.activate)
          = lines.map LREvent.readLine ++ [LREvent.finished]) :=
  ⟨lrRun_exhausted_all_finished, lrRun_no_restore_finished_le_one, lrRun_complete_run⟩

/-- **C10.** `requestEntriesRemove` with an empty entry list returns 0 and
interacts with nothing: no confirmation prompt, no reference prompt, no
store side effect, for every setting of the confirm-deletion flag and the
permanent flag. -/
theorem requestEntriesRemove_empty (confirm : Bool) (refsOf : Nat → List Nat)
    (permanent : Bool) (stream : List Char) :
    requestEntriesRemove confirm refsOf [] permanent stream
      = { count := 0, events := [] } := rfl

/-- **C1 (code bug).** With the confirm-deletion setting on, a permanent
request for entry 0 (no references): answering `d` (Deny) at the batch
confirmation does not remove zero entries — the code proceeds and hard
deletes the entry, returning 1; the same happens when input is exhausted
at the confirmation (cancel); answering `a` (Allow) is what returns 0.
The source's `confirmDeleteItem() && confirmDeleteEntries(...)` guard
lacks a negation on the confirmation result. -/
theorem confirmDeny_still_removes :
    requestEntriesRemove true (fun _ => []) [0] true "d\n".toList
        = { count := 1, events := [.confirmPrompt, .hardDelete 0] } ∧
    requestEntriesRemove true (fun _ => []) [0] true []
        = { count := 1, events := [.confirmPrompt, .hardDelete 0] } ∧
    requestEntriesRemove true (fun _ => []) [0] true "a\n".toList
        = { count := 0, events := [.confirmPrompt] } := by decide

/-- **C5 (code bug).** Permanent deletion of the batch `[0, 1]` where entry
0 is referenced only by entry 1, i.e. only from inside the batch: the
3-way reference-resolution prompt for entry 0 is still shown (the source
tests `references.isEmpty()` before removing the in-batch references), and
answering Overwrite rewrites nothing because the filtered reference set is
empty. -/
theorem refPrompt_shown_for_in_batch_refs :
    requestEntriesRemove false (fun e => if e = 0 then [1] else []) [0, 1] true "o\n".toList
      = { count := 2, events := [.refPrompt 0, .hardDelete 0, .hardDelete 1] } := by decide

/-! ### The unlock workflow: cancellation leaves no durable decision -/

/-- A decisions map holding no durable grant or denial. -/
def NoDurable (d : Nat → AuthDecision) : Prop :=
  ∀ e, d e ≠ .Allowed ∧ d e ≠ .Denied

theorem updMap_noDurable {d : Nat → AuthDecision} {v : AuthDecision} (e : Nat)
    (hd : NoDurable d) (hv1 : v ≠ .Allowed) (hv2 : v ≠ .Denied) :
    NoDurable (updMap d e v) := by
  intro x
  unfold updMap
  by_cases hx : x = e
  · simp [hx, hv1, hv2]
  · simp [hx]; exact hd x

theorem unlockSelLoop_no_durable (action : Action) (decision : AuthDecision)
    (hdec1 : decision ≠ .Allowed) (hdec2 : decision ≠ .Denied) :
    ∀ (es : List Nat) (d : Nat → AuthDecision) (s : List Char), NoDurable d →
      (match unlockSelLoop action decision es d s with
       | .error d' => NoDurable d'
       | .ok (d', _) => NoDurable d') := by
  intro es
  induction es with
  | nil => intro d s hd; exact hd
  | cons e es ih =>
    intro d s hd
    by_cases ha : action = .AllowSelected
    · rcases hua : userActionS ynGroups s with ⟨c, s'⟩
      simp only [unlockSelLoop, if_pos ha, hua]
      by_cases hc : c = -1
      · simp only [if_pos hc]
        exact hd
      · simp only [if_neg hc]
        apply ih
        apply updMap_noDurable e hd
        · split
          · simp
          · exact hdec1
        · split
          · simp
          · exact hdec2
    · simp only [unlockSelLoop, if_neg ha]
      exact ih (updMap d e decision) s (updMap_noDurable e hd hdec1 hdec2)

theorem unlockAfterChoice_cancelled (entries : List Nat) (action : Action)
    (decision0 : AuthDecision) (d0 : Nat → AuthDecision) (s1 : List Char)
    (hdec1 : decision0 ≠ .Allowed) (hdec2 : decision0 ≠ .Denied)
    (hd0 : NoDurable d0)
    (hok : (unlockAfterChoice entries action decision0 d0 s1).ok = false) :
    (unlockAfterChoice entries action decision0 d0 s1).future = .Undecided ∧
      NoDurable (unlockAfterChoice entries action decision0 d0 s1).decisions := by
  have hsel := unlockSelLoop_no_durable action decision0 hdec1 hdec2 entries d0 s1 hd0
  rcases h : unlockSelLoop action decision0 entries d0 s1 with d | ⟨d, s2⟩
  · rw [h] at hsel
    simp only [unlockAfterChoice, h]
    exact ⟨by trivial, hsel⟩
  · rw [h] at hsel
    rcases hua : userActionS ynGroups s2 with ⟨c2, s3⟩
    simp only [unlockAfterChoice, h, hua] at hok ⊢
    by_cases hc0 : c2 = 0
    · simp only [if_pos hc0] at hok
      exact Bool.noConfusion hok
    · rw [if_neg hc0] at hok ⊢
      by_cases hc1 : c2 = 1
      · simp only [if_pos hc1] at hok
        exact Bool.noConfusion hok
      · rw [if_neg hc1] at hok ⊢
        exact ⟨by trivial, hsel⟩

/-- **C2.** Whenever `requestEntriesUnlock` is cancelled (returns `false` —
input exhausted at the batch choice, at any per-entry yes/no question, or
at the remember question), no durable decision is recorded: provided the
caller's decisions hash held no durable grant or denial, it still holds
none afterwards, and the `forFutureEntries` out-parameter is `Undecided`. -/
theorem unlock_cancelled_no_durable (entries : List Nat) (d0 : Nat → AuthDecision)
    (stream : List Char) (hd0 : NoDurable d0)
    (hok : (requestEntriesUnlock entries d0 stream).ok = false) :
    (requestEntriesUnlock entries d0 stream).future = .Undecided ∧
      NoDurable (requestEntriesUnlock entries d0 stream).decisions := by
  rcases h1 : userActionS unlockGroups stream with ⟨c, s1⟩
  simp only [requestEntriesUnlock, h1] at hok ⊢
  by_cases hc0 : c = 0
  · rw [if_pos hc0] at hok ⊢
    exact unlockAfterChoice_cancelled entries .AllowAll .AllowedOnce d0 s1
      (by decide) (by decide) hd0 hok
  · rw [if_neg hc0] at hok ⊢
    by_cases hc1 : c = 1
    · rw [if_pos hc1] at hok ⊢
      exact unlockAfterChoice_cancelled entries .DenyAll .DeniedOnce d0 s1
        (by decide) (by decide) hd0 hok
    · rw [if_neg hc1] at hok ⊢
      by_cases hc2 : c = 2
      · rw [if_pos hc2] at hok ⊢
        exact unlockAfterChoice_cancelled entries .AllowSelected .AllowedOnce d0 s1
          (by decide) (by decide) hd0 hok
      · rw [if_neg hc2] at hok ⊢
        exact ⟨rfl, hd0⟩

/-- **C2 witness.** A concrete cancelled run: one entry, input closed
immediately — the request reports cancellation, the future policy is
`Undecided` and entry 0 carries no durable decision. -/
theorem unlock_cancelled_no_durable_witness :
    (requestEntriesUnlock [0] (fun _ => .Undecided) []).future = .Undecided ∧
      (requestEntriesUnlock [0] (fun _ => .Undecided) []).decisions 0 ≠ .Allowed ∧
      (requestEntriesUnlock [0] (fun _ => .Undecided) []).decisions 0 ≠ .Denied := by
  have h := unlock_cancelled_no_durable [0] (fun _ => .Undecided) []
    (fun _ => ⟨fun hc => AuthDecision.noConfusion hc, fun hc => AuthDecision.noConfusion hc⟩)
    (by decide)
  exact ⟨h.1, (h.2 0).1, (h.2 0).2⟩

/-! ### The unlock workflow: Allow All / Deny All -/

theorem unlockSelLoop_broadcast (action : Action) (decision : AuthDecision)
    (ha : action ≠ .AllowSelected) :
    ∀ (es : List Nat) (d : Nat → AuthDecision) (s : List Char),
      ∃ d', unlockSelLoop action decision es d s = .ok (d', s) ∧
        (∀ e ∈ es, d' e = decision) ∧ (∀ e, e ∉ es → d' e = d e) := by
  intro es
  induction es with
  | nil => intro d s; exact ⟨d, rfl, by simp, fun e _ => rfl⟩
  | cons a es ih =>
    intro d s
    obtain ⟨d', heq, hin, hout⟩ := ih (updMap d a decision) s
    refine ⟨d', ?_, ?_, ?_⟩
    · simp only [unlockSelLoop, if_neg ha]
      exact heq
    · intro e he
      rcases List.mem_cons.mp he with rfl | he'
      · by_cases hmem : e ∈ es
        · exact hin e hmem
        · rw [hout e hmem]; simp [updMap]
      · exact hin e he'
    · intro e he
      have h1 : e ∉ es := fun hm => he (List.mem_cons_of_mem _ hm)
      have h2 : e ≠ a := fun hh => he (hh ▸ List.mem_cons_self _ _)
      rw [hout e h1]; simp [updMap, h2]

theorem unlockRememberLoop_all (decision : AuthDecision) :
    ∀ (es : List Nat) (d : Nat → AuthDecision),
      (∀ e ∈ es, d e ≠ .Undecided) → decision ≠ .Undecided →
      (∀ e ∈ es, unlockRememberLoop decision es d e = decision) ∧
      (∀ e, e ∉ es → unlockRememberLoop decision es d e = d e) := by
  intro es
  induction es with
  | nil => intro d _ _; exact ⟨by simp, fun e _ => rfl⟩
  | cons a es ih =>
    intro d hd hdec
    have hda : d a ≠ .Undecided := hd a (List.mem_cons_self _ _)
    have hstep : unlockRememberLoop decision (a :: es) d
        = unlockRememberLoop decision es (updMap d a decision) := by
      simp only [unlockRememberLoop, if_pos hda]
    have hd1 : ∀ e ∈ es, updMap d a decision e ≠ .Undecided := by
      intro e he
      unfold updMap
      by_cases hea : e = a
      · simp [hea, hdec]
      · simp only [if_neg hea]
        exact hd e (List.mem_cons_of_mem _ he)
    obtain ⟨hin, hout⟩ := ih (updMap d a decision) hd1 hdec
    constructor
    · intro e he
      rcases List.mem_cons.mp he with rfl | he'
      · by_cases hmem : e ∈ es
        · rw [hstep]; exact hin e hmem
        · rw [hstep, hout e hmem]; simp [updMap]
      · rw [hstep]; exact hin e he'
    · intro e he
      have h1 : e ∉ es := fun hm => he (List.mem_cons_of_mem _ hm)
      have h2 : e ≠ a := fun hh => he (hh ▸ List.mem_cons_self _ _)
      rw [hstep, hout e h1]; simp [updMap, h2]

/-- **C3.** For every non-empty entry list, `requestEntriesUnlock`: with
"Allow All" (`a`) then remember-yes (`y`), every requested entry's decision
is durable `Allowed` and the future policy is `Allowed`; with "Allow All"
then remember-no (`n`), every entry gets `AllowedOnce` and the future
policy stays `Undecided`; with "Deny All" (`d`) then remember-yes, every
entry gets durable `Denied` and the future policy is `Denied`. -/
theorem unlock_allowAll_denyAll (entries : List Nat) (_hne : entries ≠ []) :
    ((requestEntriesUnlock entries (fun _ => .Undecided) "a\ny\n".toList).ok = true ∧
      (requestEntriesUnlock entries (fun _ => .Undecided) "a\ny\n".toList).future = .Allowed ∧
      ∀ e ∈ entries,
        (requestEntriesUnlock entries (fun _ => .Undecided) "a\ny\n".toList).decisions e
          = .Allowed) ∧
    ((requestEntriesUnlock entries (fun _ => .Undecided) "a\nn\n".toList).ok = true ∧
      (requestEntriesUnlock entries (fun _ => .Undecided) "a\nn\n".toList).future = .Undecided ∧
      ∀ e ∈ entries,
        (requestEntriesUnlock entries (fun _ => .Undecided) "a\nn\n".toList).decisions e
          = .AllowedOnce) ∧
    ((requestEntriesUnlock entries (fun _ => .Undecided) "d\ny\n".toList).ok = true ∧
      (requestEntriesUnlock entries (fun _ => .Undecided) "d\ny\n".toList).future = .Denied ∧
      ∀ e ∈ entries,
        (requestEntriesUnlock entries (fun _ => .Undecided) "d\ny\n".toList).decisions e
          = .Denied) := by
  clear _hne
  refine ⟨?_, ?_, ?_⟩
  · obtain ⟨d', heq, hin, hout⟩ := unlockSelLoop_broadcast .AllowAll .AllowedOnce (by decide)
      entries (fun _ => .Undecided) ['\n', 'y', '\n']
    have h1 : userActionS unlockGroups "a\ny\n".toList = (0, ['\n', 'y', '\n']) := by decide
    have h2 : userActionS ynGroups ['\n', 'y', '\n'] = (0, ['\n']) := by decide
    simp only [requestEntriesUnlock, h1, show ((0 : Int) = 0) = True by simp, if_true,
      unlockAfterChoice, heq, h2]
    obtain ⟨rin, -⟩ := unlockRememberLoop_all .Allowed entries d'
      (fun e he => by rw [hin e he]; decide) (by decide)
    refine ⟨by trivial, by trivial, ?_⟩
    intro e he
    simpa using rin e he
  · obtain ⟨d', heq, hin, hout⟩ := unlockSelLoop_broadcast .AllowAll .AllowedOnce (by decide)
      entries (fun _ => .Undecided) ['\n', 'n', '\n']
    have h1 : userActionS unlockGroups "a\nn\n".toList = (0, ['\n', 'n', '\n']) := by decide
    have h2 : userActionS ynGroups ['\n', 'n', '\n'] = (1, ['\n']) := by decide
    simp only [requestEntriesUnlock, h1, show ((0 : Int) = 0) = True by simp, if_true,
      unlockAfterChoice, heq, h2]
    refine ⟨by simp, by simp, ?_⟩
    intro e he
    simpa using hin e he
  · obtain ⟨d', heq, hin, hout⟩ := unlockSelLoop_broadcast .DenyAll .DeniedOnce (by decide)
      entries (fun _ => .Undecided) ['\n', 'y', '\n']
    have h1 : userActionS unlockGroups "d\ny\n".toList = (1, ['\n', 'y', '\n']) := by decide
    have h2 : userActionS ynGroups ['\n', 'y', '\n'] = (0, ['\n']) := by decide
    simp only [requestEntriesUnlock, h1, show ((1 : Int) = 0) = False by simp, if_false,
      show ((1 : Int) = 1) = True by simp, if_true, unlockAfterChoice, heq, h2]
    obtain ⟨rin, -⟩ := unlockRememberLoop_all .Denied entries d'
      (fun e he => by rw [hin e he]; decide) (by decide)
    refine ⟨by trivial, by trivial, ?_⟩
    intro e he
    simpa using rin e he

/-- **C3 witness.** The three scenarios at the one-entry list `[0]`. -/
theorem unlock_allowAll_denyAll_witness :
    (requestEntriesUnlock [0] (fun _ => .Undecided) "a\ny\n".toList).future = .Allowed ∧
      (requestEntriesUnlock [0] (fun _ => .Undecided) "a\ny\n".toList).decisions 0 = .Allowed ∧
      (requestEntriesUnlock [0] (fun _ => .Undecided) "a\nn\n".toList).decisions 0
        = .AllowedOnce ∧
      (requestEntriesUnlock [0] (fun _ => .Undecided) "d\ny\n".toList).decisions 0 = .Denied := by
  have h := unlock_allowAll_denyAll [0] (by decide)
  exact ⟨h.1.2.1, h.1.2.2 0 (by simp), h.2.1.2.2 0 (by simp), h.2.2.2.2 0 (by simp)⟩

/-! ### The unlock workflow: Allow Selected -/

/-- The characters the operator types for one per-entry yes/no answer: the
newline terminating the previous token, then `y` or `n`. -/
def ynTok (b : Bool) : List Char := ['\n', if b then 'y' else 'n']

/-- The operator's per-entry answers of an Allow Selected run, as an input
stream fragment. -/
def ynStream (answers : List Bool) : List Char := (answers.map ynTok).flatten

theorem userActionS_ws_skip (groups : List (List Char)) (c : Char) (s : List Char)
    (hc : isWs c = true) : userActionS groups (c :: s) = userActionS groups s := by
  have hr : readToken (c :: s) = readToken s := by
    simp [readToken, List.dropWhile_cons, hc]
  conv_lhs => rw [userActionS_eq]
  conv_rhs => rw [userActionS_eq]
  rw [hr]

theorem userActionS_tok1 (groups : List (List Char)) (c d : Char) (tl : List Char)
    (hc : isWs c = false) (hd : isWs d = true) :
    userActionS groups (c :: d :: tl) =
      match findMatch groups (cleanStr [c]) with
      | some i => (Int.ofNat i, d :: tl)
      | none => userActionS groups (d :: tl) := by
  have hr : readToken (c :: d :: tl) = ([c], d :: tl) := by
    simp [readToken, List.dropWhile_cons, List.takeWhile_cons, hc, hd]
  rw [userActionS_eq, hr]
  simp [List.cons_ne_nil]

theorem ynStream_shape (answers : List Bool) :
    ∃ tl, ynStream answers ++ ['\n', 'n', '\n'] = '\n' :: tl := by
  cases answers with
  | nil => exact ⟨['n', '\n'], rfl⟩
  | cons b bs =>
    exact ⟨(if b then 'y' else 'n') :: (ynStream bs ++ ['\n', 'n', '\n']),
      by simp [ynStream, ynTok]⟩

theorem unlockSelLoop_selected :
    ∀ (ans : List Bool) (es : List Nat) (d : Nat → AuthDecision),
      es.length = ans.length → es.Nodup →
      ∃ d', unlockSelLoop .AllowSelected .AllowedOnce es d (ynStream ans ++ ['\n', 'n', '\n'])
          = .ok (d', ['\n', 'n', '\n'])
        ∧ (∀ p ∈ es.zip ans, d' p.1 = if p.2 then AuthDecision.AllowedOnce else .Undecided)
        ∧ (∀ e, e ∉ es → d' e = d e) := by
  intro ans
  induction ans with
  | nil =>
    intro es d hlen _
    obtain rfl : es = [] := List.length_eq_zero.mp hlen
    exact ⟨d, by simp [ynStream, unlockSelLoop], by simp, fun e _ => rfl⟩
  | cons b bs ih =>
    intro es d hlen hnd
    rcases es with _ | ⟨e, es'⟩
    · simp at hlen
    · have hlen' : es'.length = bs.length := by simpa using hlen
      have hnd' : es'.Nodup := (List.nodup_cons.mp hnd).2
      have hnotmem : e ∉ es' := (List.nodup_cons.mp hnd).1
      obtain ⟨tl, htl⟩ := ynStream_shape bs
      have hstream : ynStream (b :: bs) ++ ['\n', 'n', '\n']
          = '\n' :: (if b then 'y' else 'n') :: ('\n' :: tl) := by
        rw [← htl]
        simp [ynStream, ynTok, List.flatten]
      have hchar : isWs (if b then 'y' else 'n') = false := by cases b <;> decide
      have hua : userActionS ynGroups (ynStream (b :: bs) ++ ['\n', 'n', '\n'])
          = (if b then (0 : Int) else 1, '\n' :: tl) := by
        rw [hstream, userActionS_ws_skip _ _ _ (by decide),
          userActionS_tok1 _ _ _ _ hchar (by decide)]
        cases b
        · have : findMatch ynGroups (cleanStr ['n']) = some 1 := by decide
          simp [this]
        · have : findMatch ynGroups (cleanStr ['y']) = some 0 := by decide
          simp [this]
      have hrest : ('\n' :: tl) = ynStream bs ++ ['\n', 'n', '\n'] := htl.symm
      set v : AuthDecision := if b then .AllowedOnce else .Undecided with hv
      obtain ⟨d', heq, hin, hout⟩ := ih es' (updMap d e v) hlen' hnd'
      refine ⟨d', ?_, ?_, ?_⟩
      · simp only [unlockSelLoop, if_pos rfl, hua]
        have hcne : (if b then (0 : Int) else 1) = -1 → False := by cases b <;> simp
        rw [if_neg hcne]
        have hval : (if (decide ¬(if b then (0 : Int) else 1) = 0) = true
            then AuthDecision.Undecided else .AllowedOnce) = v := by
          cases b <;> simp [hv]
        rw [hval, hrest]
        exact heq
      · intro p hp
        rcases List.mem_cons.mp hp with rfl | hp'
        · have : d' e = updMap d e v e := hout e hnotmem
          rw [this]
          simp [updMap, hv]
        · exact hin p hp'
      · intro x hx
        have h1 : x ∉ es' := fun hm => hx (List.mem_cons_of_mem _ hm)
        have h2 : x ≠ e := fun hh => hx (hh ▸ List.mem_cons_self _ _)
        rw [hout x h1]
        simp [updMap, h2]

/-- **C4.** An Allow Selected run (`s`), arbitrary per-entry yes/no answers,
remember-no: the request completes, each entry answered `y` gets
`AllowedOnce`, each entry answered `n` gets `Undecided` (never `Denied` or
`DeniedOnce`), and the future policy is `Undecided`.  At three entries with
answers yes/no/yes this gives `{AllowedOnce, Undecided, AllowedOnce}`. -/
theorem unlock_allowSelected (entries : List Nat) (answers : List Bool)
    (hlen : entries.length = answers.length) (hnd : entries.Nodup) :
    (requestEntriesUnlock entries (fun _ => .Undecided)
        ('s' :: (ynStream answers ++ ['\n', 'n', '\n']))).ok = true ∧
    (requestEntriesUnlock entries (fun _ => .Undecided)
        ('s' :: (ynStream answers ++ ['\n', 'n', '\n']))).future = .Undecided ∧
    ∀ p ∈ entries.zip answers,
      (requestEntriesUnlock entries (fun _ => .Undecided)
          ('s' :: (ynStream answers ++ ['\n', 'n', '\n']))).decisions p.1
        = if p.2 then AuthDecision.AllowedOnce else .Undecided := by
  obtain ⟨tl, htl⟩ := ynStream_shape answers
  have h1 : userActionS unlockGroups ('s' :: (ynStream answers ++ ['\n', 'n', '\n']))
      = (2, ynStream answers ++ ['\n', 'n', '\n']) := by
    rw [htl, userActionS_tok1 _ _ _ _ (by decide) (by decide)]
    have : findMatch unlockGroups (cleanStr ['s']) = some 2 := by decide
    simp [this]
  obtain ⟨d', heq, hin, hout⟩ :=
    unlockSelLoop_selected answers entries (fun _ => .Undecided) hlen hnd
  have h2 : userActionS ynGroups ['\n', 'n', '\n'] = (1, ['\n']) := by decide
  simp only [requestEntriesUnlock, h1,
    show ((2 : Int) = 0) = False by simp, show ((2 : Int) = 1) = False by simp,
    show ((2 : Int) = 2) = True by simp, if_false, if_true,
    unlockAfterChoice, heq, h2,
    show ((1 : Int) = 0) = False by simp, show ((1 : Int) = 1) = True by simp]
  exact ⟨by trivial, by trivial, fun p hp => hin p hp⟩

/-- **C4 witness.** Three entries, answers yes/no/yes, remember-no:
decisions `{AllowedOnce, Undecided, AllowedOnce}` and future policy
`Undecided`. -/
theorem unlock_allowSelected_witness :
    (requestEntriesUnlock [0, 1, 2] (fun _ => .Undecided)
        ('s' :: (ynStream [true, false, true] ++ ['\n', 'n', '\n']))).decisions 0
        = .AllowedOnce ∧
    (requestEntriesUnlock [0, 1, 2] (fun _ => .Undecided)
        ('s' :: (ynStream [true, false, true] ++ ['\n', 'n', '\n']))).decisions 1
        = .Undecided ∧
    (requestEntriesUnlock [0, 1, 2] (fun _ => .Undecided)
        ('s' :: (ynStream [true, false, true] ++ ['\n', 'n', '\n']))).decisions 2
        = .AllowedOnce ∧
    (requestEntriesUnlock [0, 1, 2] (fun _ => .Undecided)
        ('s' :: (ynStream [true, false, true] ++ ['\n', 'n', '\n']))).future = .Undecided := by
  have h := unlock_allowSelected [0, 1, 2] [true, false, true] (by decide) (by decide)
  refine ⟨?_, ?_, ?_, h.2.1⟩
  · simpa using h.2.2 (0, true) (by decide)
  · simpa using h.2.2 (1, false) (by decide)
  · simpa using h.2.2 (2, true) (by decide)

/-! ### The delete workflow: skip/overwrite semantics and the returned count -/

/-- The operator's answers at the 3-way reference-resolution prompt. -/
inductive RefAnswer
  | overwrite
  | skip
  | delete
  deriving DecidableEq, Repr

/-- The token the operator types for each answer. -/
def refTok : RefAnswer → Char
  | .overwrite => 'o'
  | .skip => 's'
  | .delete => 'd'

/-- The answers as an input stream (each token followed by its newline). -/
def refStream (ans : List RefAnswer) : List Char :=
  (ans.map (fun a => [refTok a, '\n'])).flatten

/-- The entries a run with these answers marks for deletion: every prompted
entry whose answer is not Skip. -/
def refSelected (ans : List RefAnswer) (es : List Nat) : List Nat :=
  ((es.zip ans).filter (fun p => p.2 ≠ .skip)).map (fun p => p.1)

/-- The prompt/rewrite events of the selection loop under these answers:
one reference prompt per entry, followed — for Overwrite answers — by one
rewrite per reference outside the batch. -/
def refEvents (refsOf : Nat → List Nat) (batch : List Nat) (ans : List RefAnswer)
    (es : List Nat) : List REvent :=
  ((es.zip ans).map (fun p =>
    REvent.refPrompt p.1 ::
      (if p.2 = RefAnswer.overwrite
       then ((refsOf p.1).filter (fun r => !batch.contains r)).map
              (fun r => REvent.overwrite r p.1)
       else []))).flatten

/-- Store-changing events (a hard delete or a recycle). -/
def isRemoveEv : REvent → Bool
  | .hardDelete _ => true
  | .recycle _ => true
  | _ => false

/-- The events of a selection-loop outcome. -/
def SelOutcome.evts : SelOutcome → List REvent
  | .aborted e => e
  | .done e _ _ => e

theorem evts_addEvents (o : SelOutcome) (evs : List REvent) :
    (o.addEvents evs).evts = evs ++ o.evts := by
  cases o <;> rfl

theorem evts_selectEntry (o : SelOutcome) (e : Nat) :
    (o.selectEntry e).evts = o.evts := by
  cases o <;> rfl

theorem removeSelLoop_no_removal (refsOf : Nat → List Nat) (batch : List Nat)
    (perm : Bool) :
    ∀ (es : List Nat) (s : List Char),
      ∀ ev ∈ (removeSelLoop refsOf batch perm es s).evts, isRemoveEv ev = false := by
  intro es
  induction es with
  | nil => intro s ev hev; simp [removeSelLoop, SelOutcome.evts] at hev
  | cons e es ih =>
    intro s ev hev
    by_cases hcond : (perm : Prop) ∧ refsOf e ≠ []
    · rcases hua : userActionS refGroups s with ⟨c, s'⟩
      simp only [removeSelLoop, if_pos hcond, hua] at hev
      by_cases hc0 : c = 0
      · rw [if_pos hc0, evts_addEvents, evts_selectEntry] at hev
        rcases List.mem_append.mp hev with hpre | hrec
        · rcases List.mem_cons.mp hpre with rfl | hov
          · rfl
          · obtain ⟨r, -, rfl⟩ := List.mem_map.mp hov
            rfl
        · exact ih s' ev hrec
      · rw [if_neg hc0] at hev
        by_cases hc1 : c = 1
        · rw [if_pos hc1, evts_addEvents] at hev
          rcases List.mem_append.mp hev with hpre | hrec
          · rcases List.mem_cons.mp hpre with rfl | hf
            · rfl
            · simp at hf
          · exact ih s' ev hrec
        · rw [if_neg hc1] at hev
          by_cases hc2 : c = 2
          · rw [if_pos hc2, evts_addEvents, evts_selectEntry] at hev
            rcases List.mem_append.mp hev with hpre | hrec
            · rcases List.mem_cons.mp hpre with rfl | hf
              · rfl
              · simp at hf
            · exact ih s' ev hrec
          · rw [if_neg hc2] at hev
            simp only [SelOutcome.evts, List.mem_singleton] at hev
            subst hev
            rfl
    · simp only [removeSelLoop, if_neg hcond, evts_selectEntry] at hev
      exact ih s ev hev

theorem filter_remove_map (perm : Bool) (sel : List Nat) :
    ((sel.map (fun e => if perm then REvent.hardDelete e else REvent.recycle e)).filter
        isRemoveEv)
      = sel.map (fun e => if perm then REvent.hardDelete e else REvent.recycle e) := by
  apply List.filter_eq_self.mpr
  intro ev hev
  obtain ⟨e, -, rfl⟩ := List.mem_map.mp hev
  cases perm <;> rfl

theorem remove_count_eq_removed (confirm : Bool) (refsOf : Nat → List Nat)
    (entries : List Nat) (perm : Bool) (stream : List Char) :
    (requestEntriesRemove confirm refsOf entries perm stream).count
      = ((requestEntriesRemove confirm refsOf entries perm stream).events.filter
          isRemoveEv).length := by
  by_cases hne : entries = []
  · subst hne; rfl
  · have core : ∀ (s1 : List Char) (evs0 : List REvent),
        (∀ ev ∈ evs0, isRemoveEv ev = false) →
        (match removeSelLoop refsOf entries perm entries s1 with
         | .aborted evs => ({ count := 0, events := evs0 ++ evs } : RemoveResult)
         | .done evs sel _ =>
            { count := sel.length,
              events := evs0 ++ evs ++ sel.map
                (fun e => if perm then REvent.hardDelete e else REvent.recycle e) }).count
          = (((match removeSelLoop refsOf entries perm entries s1 with
               | .aborted evs => ({ count := 0, events := evs0 ++ evs } : RemoveResult)
               | .done evs sel _ =>
                  { count := sel.length,
                    events := evs0 ++ evs ++ sel.map
                      (fun e => if perm then REvent.hardDelete e
                                else REvent.recycle e) }).events).filter
              isRemoveEv).length := by
      intro s1 evs0 h0
      have hloopev := removeSelLoop_no_removal refsOf entries perm entries s1
      have hf0 : evs0.filter isRemoveEv = [] :=
        List.filter_eq_nil_iff.mpr (fun a ha => by simp [h0 a ha])
      rcases hloop : removeSelLoop refsOf entries perm entries s1 with evs | ⟨evs, sel, rest⟩
      · rw [hloop] at hloopev
        simp only [SelOutcome.evts] at hloopev
        have hf1 : evs.filter isRemoveEv = [] :=
          List.filter_eq_nil_iff.mpr (fun a ha => by simp [hloopev a ha])
        simp [List.filter_append, hf0, hf1]
      · rw [hloop] at hloopev
        simp only [SelOutcome.evts] at hloopev
        have hf1 : evs.filter isRemoveEv = [] :=
          List.filter_eq_nil_iff.mpr (fun a ha => by simp [hloopev a ha])
        simp [List.filter_append, hf0, hf1, filter_remove_map]
    by_cases hcf : confirm
    · rcases hcd : confirmDeleteEntries stream with ⟨stop, s1⟩
      simp only [requestEntriesRemove, if_neg hne, if_pos hcf, hcd]
      cases stop
      · simpa using core s1 [REvent.confirmPrompt]
          (by intro ev hev; simp at hev; subst hev; rfl)
      · rfl
    · simp only [requestEntriesRemove, if_neg hne, if_neg hcf]
      simpa using core stream [] (by intro ev hev; simp at hev)

theorem userActionS_ws_many (groups : List (List Char)) :
    ∀ (pre s : List Char), (∀ ch ∈ pre, isWs ch = true) →
      userActionS groups (pre ++ s) = userActionS groups s := by
  intro pre
  induction pre with
  | nil => intro s _; rfl
  | cons w pre ih =>
    intro s hws
    rw [List.cons_append, userActionS_ws_skip _ _ _ (hws w (List.mem_cons_self _ _))]
    exact ih s (fun ch hc => hws ch (List.mem_cons_of_mem _ hc))

theorem removeSelLoop_cons_prompt (refsOf : Nat → List Nat) (batch : List Nat)
    (e : Nat) (es : List Nat) (s : List Char) (hre : refsOf e ≠ []) :
    removeSelLoop refsOf batch true (e :: es) s =
      (let refs := (refsOf e).filter (fun r => !batch.contains r)
       let (c, s') := userActionS refGroups s
       if c = 0 then
         ((removeSelLoop refsOf batch true es s').selectEntry e).addEvents
           (.refPrompt e :: refs.map (fun r => .overwrite r e))
       else if c = 1 then
         (removeSelLoop refsOf batch true es s').addEvents [.refPrompt e]
       else if c = 2 then
         ((removeSelLoop refsOf batch true es s').selectEntry e).addEvents [.refPrompt e]
       else .aborted [.refPrompt e]) := by
  simp only [removeSelLoop]
  rw [if_pos]
  exact ⟨trivial, hre⟩

theorem removeSelLoop_answers (refsOf : Nat → List Nat) (batch : List Nat) :
    ∀ (ans : List RefAnswer) (es : List Nat) (pre : List Char),
      es.length = ans.length → (∀ e ∈ es, refsOf e ≠ []) →
      (∀ ch ∈ pre, isWs ch = true) →
      ∃ leftover, removeSelLoop refsOf batch true es (pre ++ refStream ans)
        = .done (refEvents refsOf batch ans es) (refSelected ans es) leftover := by
  intro ans
  induction ans with
  | nil =>
    intro es pre hlen _ _
    obtain rfl : es = [] := List.length_eq_zero.mp hlen
    exact ⟨pre ++ refStream [], rfl⟩
  | cons a as ih =>
    intro es pre hlen hrefs hpre
    rcases es with _ | ⟨e, es'⟩
    · simp at hlen
    · have hlen' : es'.length = as.length := by simpa using hlen
      have hrefs' : ∀ x ∈ es', refsOf x ≠ [] :=
        fun x hx => hrefs x (List.mem_cons_of_mem _ hx)
      have hre : refsOf e ≠ [] := hrefs e (List.mem_cons_self _ _)
      have hcharne : isWs (refTok a) = false := by cases a <;> decide
      have hstream : pre ++ refStream (a :: as)
          = pre ++ (refTok a :: '\n' :: refStream as) := by
        simp [refStream]
      obtain ⟨leftover, hrec⟩ := ih es' ['\n'] hlen' hrefs'
        (by intro ch hc; simp at hc; subst hc; decide)
      rw [List.singleton_append] at hrec
      refine ⟨leftover, ?_⟩
      rw [removeSelLoop_cons_prompt refsOf batch e es' _ hre]
      cases a
      · have hua : userActionS refGroups (pre ++ refStream (RefAnswer.overwrite :: as))
            = (0, '\n' :: refStream as) := by
          rw [hstream, userActionS_ws_many _ pre _ hpre,
            userActionS_tok1 _ _ _ _ hcharne (by decide)]
          have hfm : findMatch refGroups (cleanStr [refTok RefAnswer.overwrite])
              = some 0 := by decide
          rw [hfm]
          rfl
        rw [hua]
        simp only [show ((0 : Int) = 0) = True by simp, if_true, hrec,
          SelOutcome.selectEntry, SelOutcome.addEvents]
        simp [refEvents, refSelected]
      · have hua : userActionS refGroups (pre ++ refStream (RefAnswer.skip :: as))
            = (1, '\n' :: refStream as) := by
          rw [hstream, userActionS_ws_many _ pre _ hpre,
            userActionS_tok1 _ _ _ _ hcharne (by decide)]
          have hfm : findMatch refGroups (cleanStr [refTok RefAnswer.skip])
              = some 1 := by decide
          rw [hfm]
          rfl
        rw [hua]
        simp only [show ((1 : Int) = 0) = False by simp, if_false,
          show ((1 : Int) = 1) = True by simp, if_true, hrec,
          SelOutcome.addEvents]
        simp [refEvents, refSelected]
      · have hua : userActionS refGroups (pre ++ refStream (RefAnswer.delete :: as))
            = (2, '\n' :: refStream as) := by
          rw [hstream, userActionS_ws_many _ pre _ hpre,
            userActionS_tok1 _ _ _ _ hcharne (by decide)]
          have hfm : findMatch refGroups (cleanStr [refTok RefAnswer.delete])
              = some 2 := by decide
          rw [hfm]
          rfl
        rw [hua]
        simp only [show ((2 : Int) = 0) = False by simp, if_false,
          show ((2 : Int) = 1) = False by simp,
          show ((2 : Int) = 2) = True by simp, if_true, hrec,
          SelOutcome.selectEntry, SelOutcome.addEvents]
        simp [refEvents, refSelected]

theorem refEvents_no_removal (refsOf : Nat → List Nat) (batch : List Nat)
    (ans : List RefAnswer) (es : List Nat) :
    ∀ ev ∈ refEvents refsOf batch ans es, isRemoveEv ev = false := by
  intro ev hev
  simp only [refEvents, List.mem_flatten] at hev
  obtain ⟨block, hb, hevb⟩ := hev
  simp only [List.mem_map] at hb
  obtain ⟨p, -, rfl⟩ := hb
  rcases List.mem_cons.mp hevb with rfl | hrest
  · rfl
  · by_cases hov : p.2 = RefAnswer.overwrite
    · rw [if_pos hov] at hrest
      obtain ⟨r, -, rfl⟩ := List.mem_map.mp hrest
      rfl
    · rw [if_neg hov] at hrest
      simp at hrest

/-- **C6.** A permanent `requestEntriesRemove` (confirmation setting off)
in which every entry has references and the operator answers the 3-way
prompt per entry: (a) the returned count is the number of entries whose
answer is not Skip; (b) the event log is exactly one reference prompt per
entry — each Overwrite answer rewriting every out-of-batch reference of
that entry — followed by the hard deletions of the non-skipped entries, so
a skipped entry is never removed, the other entries of the batch still
are, and every rewrite happens before any deletion; (c) the prompt/rewrite
phase performs no removal; (d) in full generality (any setting, any
answers, any stream), the returned count equals the number of removal
events actually performed. -/
theorem remove_skip_overwrite (refsOf : Nat → List Nat) (entries : List Nat)
    (ans : List RefAnswer) (hlen : entries.length = ans.length)
    (hrefs : ∀ e ∈ entries, refsOf e ≠ []) :
    (requestEntriesRemove false refsOf entries true (refStream ans)).count
        = (refSelected ans entries).length ∧
    (requestEntriesRemove false refsOf entries true (refStream ans)).events
        = refEvents refsOf entries ans entries
          ++ (refSelected ans entries).map (fun e => REvent.hardDelete e) ∧
    (∀ ev ∈ refEvents refsOf entries ans entries, isRemoveEv ev = false) ∧
    (∀ (confirm : Bool) (refsOf' : Nat → List Nat) (es : List Nat) (perm : Bool)
        (stream : List Char),
      (requestEntriesRemove confirm refsOf' es perm stream).count
        = ((requestEntriesRemove confirm refsOf' es perm stream).events.filter
            isRemoveEv).length) := by
  refine ⟨?_, ?_, refEvents_no_removal refsOf entries ans entries,
    remove_count_eq_removed⟩ <;>
  · by_cases hne : entries = []
    · subst hne
      obtain rfl : ans = [] := List.length_eq_zero.mp (hlen.symm ▸ rfl)
      simp [requestEntriesRemove, refSelected, refEvents]
    · obtain ⟨leftover, hloop⟩ :=
        removeSelLoop_answers refsOf entries ans entries [] hlen hrefs (by simp)
      rw [List.nil_append] at hloop
      simp [requestEntriesRemove, if_neg hne, hloop]

/-- **C6 witness.** Batch `[0, 1]`, entry 0 referenced by 5, entry 1 by 6,
answers Skip then Delete-anyway: entry 0 is not removed, entry 1 is, and
the count is 1. -/
theorem remove_skip_overwrite_witness :
    (requestEntriesRemove false (fun e => if e = 0 then [5] else if e = 1 then [6] else [])
        [0, 1] true (refStream [RefAnswer.skip, RefAnswer.delete])).count = 1 ∧
    (requestEntriesRemove false (fun e => if e = 0 then [5] else if e = 1 then [6] else [])
        [0, 1] true (refStream [RefAnswer.skip, RefAnswer.delete])).events
      = [REvent.refPrompt 0, REvent.refPrompt 1, REvent.hardDelete 1] := by
  have h := remove_skip_overwrite
    (fun e => if e = 0 then [5] else if e = 1 then [6] else [])
    [0, 1] [RefAnswer.skip, RefAnswer.delete] (by decide) (by decide)
  exact ⟨h.1.trans (by decide), (h.2.1).trans (by decide)⟩

end KPXC
